import Mathlib

/-!
Shallow embedding of the script-number codec from
`src/script/int_serialization.h` (namespace `bsv`): the serializer,
the three deserializer variants, the minimality checker and the
in-place minimal rewriter, together with proofs of round-trip,
minimality and equivalence properties.

Bytes (`uint8_t`) are modelled as `Nat` values, with `< 256` bounds
carried as hypotheses where they matter.  The C++ integer type `T`
is `int64_t`; its two's-complement bit pattern is modelled as a `Nat`
reduced modulo `2 ^ 64`, and `toInt64` converts a pattern back to the
mathematical value of the signed 64-bit integer.
-/

namespace bsv

/-- Two's-complement negation of a 64-bit pattern (`-result` on `int64_t`). -/
def neg64 (x : Nat) : Nat := (2 ^ 64 - x) % 2 ^ 64

/-- The signed value of a 64-bit two's-complement pattern. -/
def toInt64 (x : Nat) : Int := if x < 2 ^ 63 then (x : Int) else (x : Int) - 2 ^ 64

/-- The `int64_t → uint64_t` conversion (`static_cast<uint64_t>(value)`). -/
def toUInt64n (value : Int) : Nat := (value % ((2 : Int) ^ 64)).toNat

/-- `bsv::abs`: unsigned magnitude, negating via unsigned wraparound. -/
def abs (value : Int) : Nat :=
  if value < 0 then (2 ^ 64 - toUInt64n value) % 2 ^ 64 else toUInt64n value

/-- The `while(absvalue != 0)` loop of `bsv::serialize`, emitting bytes. -/
def serializeLoop (absvalue : Nat) (neg : Bool) : List Nat :=
  if h : absvalue = 0 then []
  else
    let tmp := absvalue &&& 0xff
    if absvalue >>> 8 ≠ 0 then
      tmp :: serializeLoop (absvalue >>> 8) neg
    else if tmp &&& 0x80 ≠ 0 then
      [tmp, if neg then 0x80 else 0]
    else
      [if neg then tmp ||| 0x80 else tmp]
termination_by absvalue
decreasing_by
  rw [Nat.shiftRight_eq_div_pow]
  exact Nat.div_lt_self (Nat.pos_of_ne_zero h) (by norm_num)

/-- `bsv::serialize` for `T = int64_t`, collecting the emitted bytes. -/
def serialize (value : Int) : List Nat :=
  if value = 0 then [] else serializeLoop (abs value) (decide (value < 0))

/-- The loop of the `forward_iterator_tag` variant of `bsv::deserialize`,
returning the 64-bit pattern of `result`. -/
def deserializeForwardLoop (bytes : List Nat) (i : Nat) (result : Nat) : Nat :=
  match bytes with
  | [] => result
  | b :: rest =>
    if rest.isEmpty ∧ b &&& 0x80 ≠ 0 then
      neg64 (result ||| (((b &&& 0x7f) <<< (8 * i)) % 2 ^ 64))
    else
      deserializeForwardLoop rest (i + 1) (result ||| ((b <<< (8 * i)) % 2 ^ 64))

/-- Pattern returned by the `forward_iterator_tag` variant of `bsv::deserialize`. -/
def deserializeForwardPat (bytes : List Nat) : Nat := deserializeForwardLoop bytes 0 0

/-- The `forward_iterator_tag` variant of `bsv::deserialize` for `T = int64_t`. -/
def deserializeForward (bytes : List Nat) : Int := toInt64 (deserializeForwardPat bytes)

/-- Pattern returned by the `bidirectional_iterator_tag` variant of
`bsv::deserialize`: the last byte is handled first, then the remaining bytes
are folded from most significant down, shifting the accumulator left by 8.
(The empty-input case is a precondition violation in the source, `assert(f != l)`;
the model returns 0 there, matching the callers' convention for empty input.) -/
def deserializeBidirPat (bytes : List Nat) : Nat :=
  match bytes.getLast? with
  | none => 0
  | some lastByte =>
    let r0 := if lastByte &&& 0x80 ≠ 0 then lastByte &&& 0x7f else lastByte
    let r := bytes.dropLast.reverse.foldl
      (fun result b => ((result <<< 8) % 2 ^ 64) ||| b) r0
    if lastByte &&& 0x80 ≠ 0 then neg64 r else r

/-- The `bidirectional_iterator_tag` variant of `bsv::deserialize` for `T = int64_t`. -/
def deserializeBidirectional (bytes : List Nat) : Int := toInt64 (deserializeBidirPat bytes)

/-- Pattern returned by the `random_access_iterator_tag` variant of
`bsv::deserialize`: a counted loop over the first `d - 1` bytes, then an
early return when `d > sizeof(T) = 8`, else sign handling of the last byte. -/
def deserializeRandomPat (bytes : List Nat) : Nat :=
  let d := bytes.length
  let result := (List.range (d - 1)).foldl
    (fun r i => r ||| (((bytes.getD i 0) <<< (8 * i)) % 2 ^ 64)) 0
  if d > 8 then result
  else
    let tmp := bytes.getD (d - 1) 0
    if tmp &&& 0x80 ≠ 0 then
      neg64 (result ||| (((tmp &&& 0x7f) <<< (8 * (d - 1))) % 2 ^ 64))
    else
      result ||| ((tmp <<< (8 * (d - 1))) % 2 ^ 64)

/-- The `random_access_iterator_tag` variant of `bsv::deserialize` for `T = int64_t`. -/
def deserializeRandom (bytes : List Nat) : Int := toInt64 (deserializeRandomPat bytes)

/-- `bsv::IsMinimallyEncoded`. -/
def IsMinimallyEncoded (vch : List Nat) (nMaxNumSize : Nat) : Bool :=
  if vch.length > nMaxNumSize then false
  else if 0 < vch.length then
    if vch.getLastD 0 &&& 0x7f = 0 then
      if vch.length ≤ 1 ∨ vch.getD (vch.length - 2) 0 &&& 0x80 = 0 then false
      else true
    else true
  else true

/-- The trimming loop of `bsv::MinimallyEncode`
(`for(size_t i = data.size() - 1; i > 0; i--)`), given the saved last
byte and the current loop counter `i`; returns the rewritten buffer. -/
def scanLoop (data : List Nat) (last : Nat) : Nat → List Nat
  | 0 => []
  | k + 1 =>
    if data.getD k 0 ≠ 0 then
      if data.getD k 0 &&& 0x80 ≠ 0 then
        data.take (k + 1) ++ [last]
      else
        data.take k ++ [data.getD k 0 ||| last]
    else
      scanLoop data last k

/-- `bsv::MinimallyEncode`: returns the flag and the rewritten buffer. -/
def MinimallyEncode (data : List Nat) : Bool × List Nat :=
  if data.length = 0 then (false, data)
  else
    let last := data.getLastD 0
    if last &&& 0x7f ≠ 0 then (false, data)
    else if data.length = 1 then (true, [])
    else if data.getD (data.length - 2) 0 &&& 0x80 ≠ 0 then (false, data)
    else (true, scanLoop data last (data.length - 1))

/-- Little-endian base-256 value of a byte list. -/
def magVal : List Nat → Nat
  | [] => 0
  | b :: rest => b + 256 * magVal rest

/-- Number of base-256 digits of a natural number (0 has none). -/
def digits256 (m : Nat) : Nat :=
  if h : m = 0 then 0 else digits256 (m / 256) + 1
termination_by m
decreasing_by exact Nat.div_lt_self (Nat.pos_of_ne_zero h) (by norm_num)

/-- Most significant base-256 digit of a natural number. -/
def topByte256 (m : Nat) : Nat :=
  if m < 256 then m else topByte256 (m / 256)
termination_by m
decreasing_by exact Nat.div_lt_self (by omega) (by norm_num)

/-! ### Bit-arithmetic toolkit -/

theorem and_7f (x : Nat) : x &&& 0x7f = x % 128 := by
  have h := Nat.and_pow_two_sub_one_eq_mod x 7
  norm_num at h
  exact h

theorem and_ff (x : Nat) : x &&& 0xff = x % 256 := by
  have h := Nat.and_pow_two_sub_one_eq_mod x 8
  norm_num at h
  exact h

theorem and_80 (x : Nat) : x &&& 0x80 = x / 128 % 2 * 128 := by
  have h := Nat.and_two_pow x 7
  norm_num at h
  rw [h, Nat.testBit_to_div_mod]
  norm_num
  rcases Nat.mod_two_eq_zero_or_one (x / 128) with h2 | h2 <;> simp [h2]

theorem or_128 (b : Nat) (hb : b < 128) : b ||| 128 = b + 128 := by
  have h := Nat.mul_add_lt_is_or (i := 7) (by omega : b < 2 ^ 7) 1
  norm_num at h
  rw [Nat.lor_comm]
  omega

/-- OR of a multiple of `2 ^ k` with a value below `2 ^ k` is their sum. -/
theorem lor_eq_add (k : Nat) {a b : Nat} (ha : a % 2 ^ k = 0) (hb : b < 2 ^ k) :
    a ||| b = a + b := by
  obtain ⟨c, hc⟩ := Nat.dvd_of_mod_eq_zero ha
  subst hc
  exact (Nat.mul_add_lt_is_or hb c).symm

/-! ### `magVal` lemmas -/

theorem magVal_lt (I : List Nat) (hI : ∀ b ∈ I, b < 256) :
    magVal I < 256 ^ I.length := by
  induction I with
  | nil => simp [magVal]
  | cons b rest ih =>
    have hb : b < 256 := hI b (by simp)
    have hr := ih (fun x hx => hI x (by simp [hx]))
    simp only [magVal, List.length_cons]
    calc b + 256 * magVal rest < 256 + 256 * magVal rest := by omega
      _ ≤ 256 * 256 ^ rest.length := by omega
      _ = 256 ^ (rest.length + 1) := by rw [pow_succ]; ring

theorem magVal_append_singleton (I : List Nat) (y : Nat) :
    magVal (I ++ [y]) = magVal I + y * 256 ^ I.length := by
  induction I with
  | nil => simp [magVal]
  | cons b rest ih =>
    rw [List.cons_append]
    show b + 256 * magVal (rest ++ [y]) = b + 256 * magVal rest + y * 256 ^ (b :: rest).length
    rw [ih, List.length_cons, pow_succ]
    ring

theorem magVal_eq_zero_iff (I : List Nat) : magVal I = 0 ↔ ∀ b ∈ I, b = 0 := by
  induction I with
  | nil => simp [magVal]
  | cons b rest ih =>
    simp only [magVal, List.mem_cons]
    constructor
    · intro h
      have hb : b = 0 := by omega
      have hr : magVal rest = 0 := by omega
      intro x hx
      rcases hx with h1 | h2
      · omega
      · exact ih.mp hr x h2
    · intro h
      have hb : b = 0 := h b (Or.inl rfl)
      have hr : magVal rest = 0 := ih.mpr (fun x hx => h x (Or.inr hx))
      omega

theorem magVal_take_succ (I : List Nat) (k : Nat) (hk : k < I.length) :
    magVal (I.take (k + 1)) = magVal (I.take k) + I.getD k 0 * 256 ^ k := by
  have h1 : I.take (k + 1) = I.take k ++ [I.getD k 0] := by
    rw [List.take_succ]
    congr 1
    rw [List.getD_eq_getElem?_getD]
    simp [List.getElem?_eq_getElem hk]
  rw [h1, magVal_append_singleton]
  have h2 : (I.take k).length = k := by
    rw [List.length_take]
    omega
  rw [h2]

/-! ### Serializer: equations and structure -/

/-- Unfolding equation of `serializeLoop`, in div/mod form. -/
theorem serializeLoop_eq (m : Nat) (neg : Bool) :
    serializeLoop m neg =
      if m = 0 then []
      else if m / 256 ≠ 0 then (m % 256) :: serializeLoop (m / 256) neg
      else if m % 256 &&& 0x80 ≠ 0 then [m % 256, if neg then 0x80 else 0]
      else [if neg then m % 256 ||| 0x80 else m % 256] := by
  rw [serializeLoop]
  have h1 : m >>> 8 = m / 256 := by
    rw [Nat.shiftRight_eq_div_pow]
  have h2 : m &&& 0xff = m % 256 := and_ff m
  simp only [h1, h2, dite_eq_ite]

/-- Structure of the byte list emitted by the serializer loop: it splits as
magnitude bytes `I` plus a final byte `L`; the encoded magnitude-and-sign
recover `m` and `neg`; and the output is minimally encoded. -/
theorem serializeLoop_spec (m : Nat) (neg : Bool) (hm : m ≠ 0) :
    ∃ I L, serializeLoop m neg = I ++ [L] ∧ (∀ b ∈ I, b < 256) ∧ L < 256 ∧
      magVal I + (L &&& 0x7f) * 256 ^ I.length = m ∧
      ((L &&& 0x80 ≠ 0) ↔ neg = true) ∧
      (L &&& 0x7f ≠ 0 ∨ (I ≠ [] ∧ I.getLastD 0 &&& 0x80 ≠ 0)) := by
  induction m using Nat.strong_induction_on with
  | _ m IH =>
  rw [serializeLoop_eq, if_neg hm]
  rcases Nat.eq_zero_or_pos (m / 256) with hdiv | hdiv
  · -- m < 256, final byte
    rw [if_neg (by omega)]
    have hm256 : m < 256 := by
      rcases Nat.lt_or_ge m 256 with h | h
      · exact h
      · exfalso; have := Nat.div_le_div_right (c := 256) h; simp at this; omega
    have hmod : m % 256 = m := Nat.mod_eq_of_lt hm256
    rw [hmod]
    rcases Nat.lt_or_ge m 128 with hlo | hhi
    · -- high bit clear: single byte
      have hand : m &&& 0x80 = 0 := by rw [and_80]; omega
      rw [if_neg (by simp [hand])]
      cases neg with
      | false =>
        refine ⟨[], m, by simp, by simp, hm256, ?_, ?_, ?_⟩
        · simp [magVal, and_7f]; omega
        · simp [hand]
        · left; rw [and_7f]; omega
      | true =>
        refine ⟨[], m ||| 0x80, by simp, by simp, ?_, ?_, ?_, ?_⟩
        · have := or_128 m hlo; omega
        · have h1 : m ||| 0x80 = m + 128 := or_128 m hlo
          simp [magVal, h1, and_7f]; omega
        · have h1 : m ||| 0x80 = m + 128 := or_128 m hlo
          rw [h1, and_80]
          simp
          omega
        · left
          have h1 : m ||| 0x80 = m + 128 := or_128 m hlo
          rw [h1, and_7f]
          omega
    · -- high bit set: byte plus sign byte
      have hand : m &&& 0x80 ≠ 0 := by rw [and_80]; omega
      rw [if_pos hand]
      refine ⟨[m], if neg then 0x80 else 0, by simp, by simp [hm256], ?_, ?_, ?_, ?_⟩
      · cases neg <;> norm_num
      · cases neg <;> simp [magVal, and_7f]
      · cases neg <;> simp [and_80]
      · right
        refine ⟨by simp, ?_⟩
        simp [List.getLastD, and_80]
        omega
  · -- m ≥ 256: emit low byte and recurse
    rw [if_pos (by omega)]
    obtain ⟨I', L', heq, hI', hL', hmag, hsign, hmin⟩ :=
      IH (m / 256) (Nat.div_lt_self (by omega) (by norm_num)) (by omega)
    refine ⟨(m % 256) :: I', L', by rw [heq, List.cons_append], ?_, hL', ?_, hsign, ?_⟩
    · intro b hb
      rcases List.mem_cons.mp hb with h | h
      · rw [h]; exact Nat.mod_lt _ (by norm_num)
      · exact hI' b h
    · simp only [magVal, List.length_cons]
      rw [pow_succ]
      have : m % 256 + 256 * (magVal I' + (L' &&& 0x7f) * 256 ^ I'.length) = m := by
        rw [hmag]
        omega
      calc m % 256 + 256 * magVal I' + (L' &&& 0x7f) * (256 ^ I'.length * 256)
          = m % 256 + 256 * (magVal I' + (L' &&& 0x7f) * 256 ^ I'.length) := by ring
        _ = m := this
    · rcases hmin with h | ⟨hne, hlast⟩
      · left; exact h
      · right
        refine ⟨by simp, ?_⟩
        have : ((m % 256) :: I').getLastD 0 = I'.getLastD 0 := by
          cases I' with
          | nil => exact absurd rfl hne
          | cons x xs => simp [List.getLastD]
        rw [this]
        exact hlast

/-! ### Decoder: closed forms -/

/-- `bsv::abs` agrees with the mathematical absolute value on the `int64_t` range. -/
theorem abs_eq_natAbs (n : Int) (h1 : -(2 : Int) ^ 63 ≤ n) (h2 : n < 2 ^ 63) :
    abs n = n.natAbs := by
  unfold abs toUInt64n
  split
  · next hneg =>
    have hmod : n % (2 : Int) ^ 64 = n + 2 ^ 64 := by omega
    rw [hmod]
    omega
  · next hpos =>
    have hmod : n % (2 : Int) ^ 64 = n := by omega
    rw [hmod]
    omega

/-- One step of OR-ing a fresh low byte into a pattern that is a multiple of 256. -/
theorem mod_mul_lor_byte (X b : Nat) (hb : b < 256) :
    ((X * 256) % 2 ^ 64) ||| b = (X * 256 + b) % 2 ^ 64 := by
  have hd : ((X * 256) % 2 ^ 64) % 2 ^ 8 = 0 := by omega
  rw [lor_eq_add 8 hd (by omega)]
  omega

/-- The reverse fold of the bidirectional decoder computes the base-256 value
of the magnitude bytes below the seed, modulo `2 ^ 64`. -/
theorem bidirFold (I : List Nat) (r0 : Nat) (hI : ∀ b ∈ I, b < 256)
    (hr0 : r0 < 2 ^ 64) :
    I.reverse.foldl (fun result b => ((result <<< 8) % 2 ^ 64) ||| b) r0
      = (magVal I + r0 * 256 ^ I.length) % 2 ^ 64 := by
  induction I with
  | nil =>
    simp only [List.reverse_nil, List.foldl_nil, magVal, List.length_nil, pow_zero,
      Nat.zero_add, Nat.mul_one]
    omega
  | cons b rest ih =>
    have hb : b < 256 := hI b (by simp)
    rw [List.reverse_cons, List.foldl_append,
      ih (fun x hx => hI x (by simp [hx]))]
    simp only [List.foldl_cons, List.foldl_nil]
    rw [Nat.shiftLeft_eq]
    have hpow : (2 : Nat) ^ 8 = 256 := by norm_num
    rw [hpow, Nat.mod_mul_mod, mod_mul_lor_byte _ b hb]
    simp only [magVal, List.length_cons]
    congr 1
    rw [pow_succ]
    ring

/-- Closed form of the bidirectional decoder pattern on a split byte list. -/
theorem bidirPat_eq (I : List Nat) (L : Nat) (hI : ∀ b ∈ I, b < 256)
    (hL : L < 256) :
    deserializeBidirPat (I ++ [L]) =
      if L &&& 0x80 ≠ 0 then
        neg64 ((magVal I + (L &&& 0x7f) * 256 ^ I.length) % 2 ^ 64)
      else (magVal I + (L &&& 0x7f) * 256 ^ I.length) % 2 ^ 64 := by
  unfold deserializeBidirPat
  rw [List.getLast?_concat]
  simp only [List.dropLast_concat]
  split
  · next hneg =>
    rw [bidirFold I (L &&& 0x7f) hI (by rw [and_7f]; omega)]
  · next hpos =>
    have hmask : L &&& 0x7f = L := by
      rw [and_80] at hpos
      rw [and_7f]
      omega
    rw [bidirFold I L hI (by omega), hmask]

/-! ### Claim C1: decode after encode is the identity -/

/-- C1: for every signed 64-bit integer `n`, deserializing (bidirectional
variant) the bytes produced by `serialize n` yields `n` back; for `n = 0`
the serializer emits the empty sequence, which stands for 0 by the callers'
convention. -/
theorem claim_C1 (n : Int) (h1 : -(2 : Int) ^ 63 ≤ n) (h2 : n < 2 ^ 63) :
    (n = 0 → serialize n = []) ∧
    (n ≠ 0 → serialize n ≠ [] ∧ deserializeBidirectional (serialize n) = n) := by
  constructor
  · intro h
    rw [serialize, if_pos h]
  · intro hne
    have habs : abs n = n.natAbs := abs_eq_natAbs n h1 h2
    have hser : serialize n = serializeLoop n.natAbs (decide (n < 0)) := by
      rw [serialize, if_neg hne, habs]
    have hnz : n.natAbs ≠ 0 := by omega
    obtain ⟨I, L, heq, hI, hL, hmag, hsign, hmin⟩ :=
      serializeLoop_spec n.natAbs (decide (n < 0)) hnz
    rw [hser, heq]
    refine ⟨by simp, ?_⟩
    unfold deserializeBidirectional
    rw [bidirPat_eq I L hI hL, hmag]
    have hbound : n.natAbs ≤ 2 ^ 63 := by omega
    rcases lt_or_gt_of_ne hne with hneg | hpos
    · have hd : decide (n < 0) = true := by simp [hneg]
      have hLs : L &&& 0x80 ≠ 0 := hsign.mpr hd
      rw [if_pos hLs]
      have hm1 : n.natAbs % 2 ^ 64 = n.natAbs := by omega
      rw [hm1]
      unfold toInt64 neg64
      split <;> omega
    · have hd : ¬(L &&& 0x80 ≠ 0) := by
        intro hc
        have := hsign.mp hc
        simp at this
        omega
      rw [if_neg hd]
      have hm1 : n.natAbs % 2 ^ 64 = n.natAbs := by omega
      rw [hm1]
      unfold toInt64
      split <;> omega

/-- Witness for C1 at `n = -255`. -/
theorem claim_C1_witness :
    serialize (-255 : Int) ≠ [] ∧
      deserializeBidirectional (serialize (-255 : Int)) = -255 :=
  (claim_C1 (-255) (by norm_num) (by norm_num)).2 (by norm_num)

/-! ### List helpers -/

theorem getLastD_irrel (l : List Nat) (d1 d2 : Nat) (hl : l ≠ []) :
    l.getLastD d1 = l.getLastD d2 := by
  cases l with
  | nil => exact absurd rfl hl
  | cons a m => rw [List.getLastD_cons, List.getLastD_cons]

theorem getLastD_mem (l : List Nat) (hl : l ≠ []) : l.getLastD 0 ∈ l := by
  induction l with
  | nil => exact absurd rfl hl
  | cons a m ih =>
    cases m with
    | nil => simp [List.getLastD]
    | cons b k =>
      rw [List.getLastD_cons, getLastD_irrel (b :: k) a 0 (by simp)]
      exact List.mem_cons_of_mem a (ih (by simp))

theorem getD_last (l : List Nat) (hl : l ≠ []) :
    l.getD (l.length - 1) 0 = l.getLastD 0 := by
  induction l with
  | nil => exact absurd rfl hl
  | cons a m ih =>
    cases m with
    | nil => simp [List.getD, List.getLastD]
    | cons b k =>
      have h1 : (a :: b :: k).length - 1 = (b :: k).length - 1 + 1 := by
        simp
      rw [h1, List.getD_cons_succ, ih (by simp)]
      conv_rhs => rw [List.getLastD_cons]
      exact getLastD_irrel (b :: k) 0 a (by simp)

theorem take_append_le (l₁ l₂ : List Nat) (n : Nat) (h : n ≤ l₁.length) :
    (l₁ ++ l₂).take n = l₁.take n := by
  induction l₁ generalizing n with
  | nil =>
    simp at h
    subst h
    simp
  | cons a m ih =>
    cases n with
    | zero => simp
    | succ k =>
      simp only [List.cons_append, List.take_succ_cons]
      rw [ih k (by simp at h; omega)]

/-! ### Minimal encodings round-trip through the codec -/

/-- Converse of `serializeLoop_spec`: a minimally encoded split byte list is
exactly what the serializer loop emits for its magnitude and sign. -/
theorem serializeLoop_of_minimal (I : List Nat) (L : Nat) (neg : Bool) :
    (∀ b ∈ I, b < 256) → L < 256 →
    ((L &&& 0x80 ≠ 0) ↔ neg = true) →
    (L &&& 0x7f ≠ 0 ∨ (I ≠ [] ∧ I.getLastD 0 &&& 0x80 ≠ 0)) →
    serializeLoop (magVal I + (L &&& 0x7f) * 256 ^ I.length) neg = I ++ [L] := by
  induction I with
  | nil =>
    intro hI hL hsign hmin
    have hne : L &&& 0x7f ≠ 0 := by
      rcases hmin with h | ⟨h, _⟩
      · exact h
      · exact absurd rfl h
    rw [and_7f] at hne
    simp only [magVal, List.length_nil, pow_zero, Nat.mul_one, Nat.zero_add,
      List.nil_append, and_7f]
    rw [serializeLoop_eq]
    rw [if_neg (by omega), if_neg (by omega),
      if_neg (by rw [Nat.mod_eq_of_lt (by omega : L % 128 < 256), and_80]; omega)]
    cases neg with
    | false =>
      have hL80 : L &&& 0x80 = 0 := by
        by_contra hc
        simp [hc] at hsign
      rw [and_80] at hL80
      simp only [Bool.false_eq_true, if_false]
      congr 1
      rw [Nat.mod_eq_of_lt (by omega : L % 128 < 256)]
      omega
    | true =>
      have hL80 : L &&& 0x80 ≠ 0 := hsign.mpr rfl
      rw [and_80] at hL80
      simp only [if_true]
      congr 1
      rw [Nat.mod_eq_of_lt (by omega : L % 128 < 256), or_128 _ (by omega)]
      omega
  | cons b0 I' ih =>
    intro hI hL hsign hmin
    have hb0 : b0 < 256 := hI b0 (by simp)
    have hI' : ∀ b ∈ I', b < 256 := fun b hb => hI b (by simp [hb])
    simp only [magVal, List.length_cons]
    have hsplit : b0 + 256 * magVal I' + (L &&& 0x7f) * 256 ^ (I'.length + 1)
        = b0 + 256 * (magVal I' + (L &&& 0x7f) * 256 ^ I'.length) := by
      rw [pow_succ]
      ring
    rw [hsplit]
    set m' := magVal I' + (L &&& 0x7f) * 256 ^ I'.length with hm'
    rcases Nat.eq_zero_or_pos m' with hz | hpos
    · -- the tail contributes nothing: `I'` is all zeros and `L`'s low bits are 0
      have hmagz : magVal I' = 0 := by
        have h1 : (L &&& 0x7f) * 256 ^ I'.length = 0 ∨ magVal I' = 0 := by omega
        omega
      have hL7 : L &&& 0x7f = 0 := by
        have hp : (0:Nat) < 256 ^ I'.length := Nat.pos_pow_of_pos _ (by norm_num)
        rcases Nat.eq_zero_or_pos (L &&& 0x7f) with h | h
        · exact h
        · exfalso
          have : 0 < (L &&& 0x7f) * 256 ^ I'.length := Nat.mul_pos h hp
          omega
      have hInil : I' = [] := by
        by_contra hc
        rcases hmin with h | ⟨_, hlast⟩
        · exact h hL7
        · have h1 : (b0 :: I').getLastD 0 = I'.getLastD 0 := by
            cases I' with
            | nil => exact absurd rfl hc
            | cons x xs =>
              rw [List.getLastD_cons, getLastD_irrel (x :: xs) b0 0 (by simp)]
          have h2 : I'.getLastD 0 = 0 :=
            (magVal_eq_zero_iff I').mp hmagz _ (getLastD_mem I' hc)
          rw [h1, h2] at hlast
          simp at hlast
      subst hInil
      have hlast : b0 &&& 0x80 ≠ 0 := by
        rcases hmin with h | ⟨_, hlast⟩
        · exact absurd hL7 h
        · simpa [List.getLastD] using hlast
      rw [hz]
      simp only [Nat.mul_zero, Nat.add_zero]
      rw [serializeLoop_eq]
      rw [and_80] at hlast
      rw [if_neg (by omega), if_neg (by omega)]
      rw [Nat.mod_eq_of_lt hb0, if_pos (by rw [and_80]; omega)]
      have hLval : L = if neg then 0x80 else 0 := by
        rw [and_7f] at hL7
        cases neg with
        | false =>
          have hL80 : L &&& 0x80 = 0 := by
            by_contra hc
            simp [hc] at hsign
          rw [and_80] at hL80
          simp
          omega
        | true =>
          have hL80 : L &&& 0x80 ≠ 0 := hsign.mpr rfl
          rw [and_80] at hL80
          simp
          omega
      simp [hLval]
    · -- the tail is non-trivial: peel off the low byte and recurse
      rw [serializeLoop_eq]
      have hq : (b0 + 256 * m') / 256 = m' := by omega
      have hr : (b0 + 256 * m') % 256 = b0 := by omega
      rw [if_neg (show ¬b0 + 256 * m' = 0 by omega),
        if_pos (show (b0 + 256 * m') / 256 ≠ 0 by omega), hq, hr,
        List.cons_append]
      congr 1
      apply ih hI' hL hsign
      by_cases hL7 : L &&& 0x7f = 0
      · right
        have hImag : magVal I' ≠ 0 := by
          rw [hL7] at hm'
          simp at hm'
          omega
        have hIne : I' ≠ [] := by
          intro hc
          rw [hc] at hImag
          simp [magVal] at hImag
        refine ⟨hIne, ?_⟩
        rcases hmin with h | ⟨_, hlast⟩
        · exact absurd hL7 h
        · have h1 : (b0 :: I').getLastD 0 = I'.getLastD 0 := by
            cases I' with
            | nil => exact absurd rfl hIne
            | cons x xs =>
              rw [List.getLastD_cons, getLastD_irrel (x :: xs) b0 0 (by simp)]
          rw [h1] at hlast
          exact hlast
      · left
        exact hL7

/-- A byte list accepted by `IsMinimallyEncoded` satisfies the structural
minimality condition on its split form. -/
theorem minimal_split (I : List Nat) (L : Nat) (nMax : Nat)
    (hmin : IsMinimallyEncoded (I ++ [L]) nMax = true) :
    L &&& 0x7f ≠ 0 ∨ (I ≠ [] ∧ I.getLastD 0 &&& 0x80 ≠ 0) := by
  unfold IsMinimallyEncoded at hmin
  rw [List.getLastD_concat] at hmin
  by_cases h1 : (I ++ [L]).length > nMax
  · rw [if_pos h1] at hmin
    exact absurd hmin (by simp)
  · rw [if_neg h1, if_pos (by simp)] at hmin
    by_cases hL7 : L &&& 0x7f = 0
    · rw [if_pos hL7] at hmin
      by_cases h2 : (I ++ [L]).length ≤ 1 ∨
          (I ++ [L]).getD ((I ++ [L]).length - 2) 0 &&& 0x80 = 0
      · rw [if_pos h2] at hmin
        exact absurd hmin (by simp)
      · right
        push_neg at h2
        obtain ⟨h2a, h2b⟩ := h2
        have hIne : I ≠ [] := by
          intro hc
          subst hc
          simp at h2a
        refine ⟨hIne, ?_⟩
        have e1 : (I ++ [L]).length - 2 = I.length - 1 := by
          simp
        rw [e1] at h2b
        have hIpos : 0 < I.length := List.length_pos.mpr hIne
        rw [List.getD_append _ _ _ _ (by omega)] at h2b
        rw [getD_last I hIne] at h2b
        exact h2b
    · left
      exact hL7

/-- Core round-trip: serializing the (bidirectionally) decoded value of a
minimally encoded byte list of host width reproduces the list. -/
theorem roundtrip_min (I : List Nat) (L : Nat) (hI : ∀ b ∈ I, b < 256)
    (hL : L < 256) (hlen : I.length ≤ 7)
    (hmin : L &&& 0x7f ≠ 0 ∨ (I ≠ [] ∧ I.getLastD 0 &&& 0x80 ≠ 0)) :
    serialize (deserializeBidirectional (I ++ [L])) = I ++ [L] := by
  set mg := magVal I + (L &&& 0x7f) * 256 ^ I.length with hmgdef
  have hp256 : (256 : Nat) ^ I.length ≤ 256 ^ 7 := Nat.pow_le_pow_right (by norm_num) hlen
  have hmagI : magVal I < 256 ^ I.length := magVal_lt I hI
  have hL7le : L &&& 0x7f ≤ 127 := by rw [and_7f]; omega
  have hLmul : (L &&& 0x7f) * 256 ^ I.length ≤ 127 * 256 ^ I.length :=
    Nat.mul_le_mul_right _ hL7le
  have hmglt : mg < 2 ^ 63 := by
    have h1 : mg < 128 * 256 ^ I.length := by omega
    have h2 : (128 : Nat) * 256 ^ I.length ≤ 128 * 256 ^ 7 := by omega
    norm_num at h2
    omega
  have hmgpos : 0 < mg := by
    rcases hmin with h | ⟨hne, hlast⟩
    · have h1 : 0 < (L &&& 0x7f) * 256 ^ I.length :=
        Nat.mul_pos (Nat.pos_of_ne_zero h) (Nat.pos_pow_of_pos _ (by norm_num))
      omega
    · rcases Nat.eq_zero_or_pos (magVal I) with hz | hpos
      · exfalso
        have h2 : I.getLastD 0 = 0 :=
          (magVal_eq_zero_iff I).mp hz _ (getLastD_mem I hne)
        rw [h2] at hlast
        simp at hlast
      · omega
  unfold deserializeBidirectional
  rw [bidirPat_eq I L hI hL, ← hmgdef]
  have hmod : mg % 2 ^ 64 = mg := by omega
  by_cases hsgn : L &&& 0x80 ≠ 0
  · rw [if_pos hsgn, hmod]
    have hval : toInt64 (neg64 mg) = -(mg : Int) := by
      unfold toInt64 neg64
      split <;> omega
    rw [hval]
    have hz : ¬(-(mg : Int) = 0) := by omega
    rw [serialize, if_neg hz]
    have habs : abs (-(mg : Int)) = mg := by
      rw [abs_eq_natAbs _ (by omega) (by omega)]
      omega
    have hneg : decide (-(mg : Int) < 0) = true := by
      simp
      omega
    rw [habs, hneg, hmgdef]
    exact serializeLoop_of_minimal I L true hI hL (by simp [hsgn]) hmin
  · rw [if_neg hsgn, hmod]
    have hval : toInt64 mg = (mg : Int) := by
      unfold toInt64
      split <;> omega
    rw [hval]
    have hz : ¬((mg : Int) = 0) := by omega
    rw [serialize, if_neg hz]
    have habs : abs (mg : Int) = mg := by
      rw [abs_eq_natAbs _ (by omega) (by omega)]
      omega
    have hneg : decide ((mg : Int) < 0) = false := by
      simp
    rw [habs, hneg, hmgdef]
    apply serializeLoop_of_minimal I L false hI hL _ hmin
    simp
    exact not_not.mp hsgn

/-- Concrete evaluation: the serializer loop on a single low byte. -/
theorem serializeLoop_byte (m : Nat) (h1 : 0 < m) (h2 : m < 128) (neg : Bool) :
    serializeLoop m neg = [if neg then m ||| 0x80 else m] := by
  rw [serializeLoop_eq, if_neg (by omega), if_neg (by omega),
    if_neg (by rw [Nat.mod_eq_of_lt (by omega), and_80]; omega),
    Nat.mod_eq_of_lt (by omega)]

/-- Concrete evaluation: the serializer loop on a single high byte. -/
theorem serializeLoop_byte_high (m : Nat) (h1 : 128 ≤ m) (h2 : m < 256) (neg : Bool) :
    serializeLoop m neg = [m, if neg then 0x80 else 0] := by
  rw [serializeLoop_eq, if_neg (by omega), if_neg (by omega),
    if_pos (by rw [Nat.mod_eq_of_lt (by omega), and_80]; omega),
    Nat.mod_eq_of_lt (by omega)]

/-! ### Claim C2 (corrected): encode after decode on minimal input -/

/-- C2 as frozen is false: with a generous `nMaxNumSize`, byte lists longer
than the host width pass `IsMinimallyEncoded` but do not round-trip.
The nine-byte minimal-looking encoding `[1,0,0,0,0,0,0,0,0x81]` decodes
(bidirectionally, with 64-bit wraparound) to `-1`, which re-serializes
to `[0x81]`. -/
theorem claim_C2_counterexample :
    IsMinimallyEncoded [1, 0, 0, 0, 0, 0, 0, 0, 0x81] 100 = true ∧
      serialize (deserializeBidirectional [1, 0, 0, 0, 0, 0, 0, 0, 0x81])
        ≠ [1, 0, 0, 0, 0, 0, 0, 0, 0x81] := by
  constructor
  · decide
  · have h1 : deserializeBidirectional [1, 0, 0, 0, 0, 0, 0, 0, 0x81] = -1 := by
      decide
    rw [h1]
    have h2 : serialize (-1) = [0x81] := by
      rw [serialize, if_neg (by norm_num)]
      have ha : abs (-1) = 1 := by
        rw [abs_eq_natAbs _ (by norm_num) (by norm_num)]
        rfl
      have hd : decide ((-1 : Int) < 0) = true := by decide
      rw [ha, hd, serializeLoop_byte 1 (by norm_num) (by norm_num)]
      decide
    rw [h2]
    simp

/-- C2 (amended): restricted to byte lists no longer than the host width
(8 bytes), every sequence accepted by `IsMinimallyEncoded` round-trips:
serializing its (bidirectionally) deserialized value reproduces it, the
empty sequence standing for the integer 0. -/
theorem claim_C2 (bs : List Nat) (nMax : Nat) (hb : ∀ b ∈ bs, b < 256)
    (hlen : bs.length ≤ 8) (hmin : IsMinimallyEncoded bs nMax = true) :
    serialize (deserializeBidirectional bs) = bs := by
  rcases eq_or_ne bs [] with hnil | hne
  · subst hnil
    have h0 : deserializeBidirPat [] = 0 := rfl
    unfold deserializeBidirectional
    rw [h0]
    norm_num [toInt64, serialize]
  · obtain ⟨I, L, hsplit⟩ : ∃ I L, bs = I ++ [L] :=
      ⟨bs.dropLast, bs.getLast hne, (List.dropLast_concat_getLast hne).symm⟩
    subst hsplit
    have hL : L < 256 := hb _ (by simp)
    have hI : ∀ b ∈ I, b < 256 := fun b h => hb b (by simp [h])
    have hlen7 : I.length ≤ 7 := by
      simp at hlen
      omega
    exact roundtrip_min I L hI hL hlen7 (minimal_split I L nMax hmin)

/-- Witness for the amended C2 at `bs = [0xff, 0x00]` (the encoding of 255). -/
theorem claim_C2_witness :
    serialize (deserializeBidirectional [0xff, 0x00]) = [0xff, 0x00] :=
  claim_C2 [0xff, 0x00] 8 (by decide) (by decide) (by decide)

/-! ### Claim C4: serializer output is minimal -/

/-- C4: for every signed 64-bit integer, the serializer's output passes
`IsMinimallyEncoded` for every size bound at least its length. -/
theorem claim_C4 (n : Int) (h1 : -(2 : Int) ^ 63 ≤ n) (h2 : n < 2 ^ 63)
    (nMax : Nat) (hmax : (serialize n).length ≤ nMax) :
    IsMinimallyEncoded (serialize n) nMax = true := by
  rcases eq_or_ne n 0 with h0 | hne
  · subst h0
    rw [serialize, if_pos rfl]
    simp [IsMinimallyEncoded]
  · have hser : serialize n = serializeLoop n.natAbs (decide (n < 0)) := by
      rw [serialize, if_neg hne, abs_eq_natAbs n h1 h2]
    obtain ⟨I, L, heq, hI, hL, hmag, hsign, hmin⟩ :=
      serializeLoop_spec n.natAbs (decide (n < 0)) (by omega)
    rw [hser, heq] at hmax ⊢
    unfold IsMinimallyEncoded
    rw [if_neg (by omega), if_pos (by simp), List.getLastD_concat]
    by_cases hL7 : L &&& 0x7f = 0
    · rw [if_pos hL7]
      rcases hmin with h | ⟨hne', hlast⟩
      · exact absurd hL7 h
      · have hIpos : 0 < I.length := List.length_pos.mpr hne'
        have e2 : (I ++ [L]).getD ((I ++ [L]).length - 2) 0 = I.getLastD 0 := by
          have e1 : (I ++ [L]).length - 2 = I.length - 1 := by simp
          rw [e1, List.getD_append _ _ _ _ (by omega), getD_last I hne']
        rw [if_neg ?_]
        intro hc
        rcases hc with hc | hc
        · have hlen2 : (I ++ [L]).length = I.length + 1 := by simp
          omega
        · rw [e2] at hc
          exact hlast hc
    · rw [if_neg hL7]

/-- Concrete evaluation: `serialize (-255) = [0xff, 0x80]`. -/
theorem serialize_neg255 : serialize (-255 : Int) = [0xff, 0x80] := by
  rw [serialize, if_neg (by norm_num)]
  have ha : abs (-255) = 255 := by
    rw [abs_eq_natAbs _ (by norm_num) (by norm_num)]
    rfl
  have hd : decide ((-255 : Int) < 0) = true := by decide
  rw [ha, hd, serializeLoop_byte_high 255 (by norm_num) (by norm_num)]
  norm_num

/-- Witness for C4 at `n = -255`, `nMaxNumSize = 9`. -/
theorem claim_C4_witness : IsMinimallyEncoded (serialize (-255 : Int)) 9 = true :=
  claim_C4 (-255) (by norm_num) (by norm_num) 9
    (by rw [serialize_neg255]; norm_num)

/-! ### Claim C10: serializer output length -/

theorem digits256_eq (m : Nat) :
    digits256 m = if m = 0 then 0 else digits256 (m / 256) + 1 := by
  rw [digits256]
  simp only [dite_eq_ite]

theorem topByte256_eq (m : Nat) :
    topByte256 m = if m < 256 then m else topByte256 (m / 256) := by
  rw [topByte256]

/-- The serializer emits one byte per base-256 digit of the magnitude, plus
one extra trailing sign byte exactly when the top digit has bit 0x80 set. -/
theorem serializeLoop_length (m : Nat) (neg : Bool) :
    (serializeLoop m neg).length =
      digits256 m + if topByte256 m &&& 0x80 ≠ 0 then 1 else 0 := by
  induction m using Nat.strong_induction_on with
  | _ m IH =>
  rcases eq_or_ne m 0 with h0 | hne
  · subst h0
    rw [serializeLoop_eq, digits256_eq, topByte256_eq]
    simp
  · rw [serializeLoop_eq, if_neg hne]
    rcases Nat.lt_or_ge m 256 with hlt | hge
    · rw [if_neg (by omega), Nat.mod_eq_of_lt hlt]
      have hd : digits256 m = 1 := by
        rw [digits256_eq, if_neg hne, show m / 256 = 0 by omega, digits256_eq]
        simp
      have ht : topByte256 m = m := by
        rw [topByte256_eq, if_pos hlt]
      rw [hd, ht]
      by_cases h80 : m &&& 0x80 ≠ 0
      · rw [if_pos h80, if_pos h80]
        simp
      · rw [if_neg h80, if_neg h80]
        simp
    · rw [if_pos (by omega)]
      have hd : digits256 m = digits256 (m / 256) + 1 := by
        rw [digits256_eq, if_neg hne]
      have ht : topByte256 m = topByte256 (m / 256) := by
        rw [topByte256_eq, if_neg (by omega)]
      have hrec := IH (m / 256) (Nat.div_lt_self (by omega) (by norm_num))
      simp only [List.length_cons, hrec, hd, ht]
      ring

theorem digits256_le (k : Nat) : ∀ m, m < 256 ^ k → digits256 m ≤ k := by
  induction k with
  | zero =>
    intro m h
    simp at h
    subst h
    rw [digits256_eq]
    simp
  | succ k ih =>
    intro m h
    rcases eq_or_ne m 0 with h0 | hne
    · subst h0
      rw [digits256_eq]
      simp
    · rw [digits256_eq, if_neg hne]
      have hdiv : m / 256 < 256 ^ k := by
        rw [Nat.div_lt_iff_lt_mul (by norm_num)]
        calc m < 256 ^ (k + 1) := h
          _ = 256 ^ k * 256 := by rw [pow_succ]
      exact Nat.succ_le_succ (ih _ hdiv)

/-- C10: the serializer appends at most 9 bytes for any `int64_t`, and its
output length is the number of base-256 digits of the magnitude plus one
extra trailing sign byte exactly when the top digit has bit 0x80 set. -/
theorem claim_C10 (n : Int) (h1 : -(2 : Int) ^ 63 ≤ n) (h2 : n < 2 ^ 63) :
    (serialize n).length ≤ 9 ∧
      (serialize n).length = digits256 n.natAbs +
        if topByte256 n.natAbs &&& 0x80 ≠ 0 then 1 else 0 := by
  rcases eq_or_ne n 0 with h0 | hne
  · subst h0
    rw [serialize, if_pos rfl]
    constructor
    · simp
    · rw [digits256_eq, topByte256_eq]
      simp
  · rw [serialize, if_neg hne, abs_eq_natAbs n h1 h2]
    have hlen := serializeLoop_length n.natAbs (decide (n < 0))
    refine ⟨?_, hlen⟩
    rw [hlen]
    have hd : digits256 n.natAbs ≤ 8 := by
      apply digits256_le 8
      have : n.natAbs ≤ 2 ^ 63 := by omega
      norm_num
      omega
    split <;> omega

/-- Witness for C10 at `n = -255`. -/
theorem claim_C10_witness :
    (serialize (-255 : Int)).length ≤ 9 ∧
      (serialize (-255 : Int)).length = digits256 (Int.natAbs (-255)) +
        if topByte256 (Int.natAbs (-255)) &&& 0x80 ≠ 0 then 1 else 0 :=
  claim_C10 (-255) (by norm_num) (by norm_num)

/-! ### Claim C3: exact characterization of the minimality checker -/

/-- C3: `IsMinimallyEncoded vch nMaxNumSize` returns `false` exactly when the
length exceeds `nMaxNumSize`, or `vch` is non-empty with the last byte's low
seven bits all clear and additionally the length is at most 1 or the
second-to-last byte's 0x80 bit is clear; in every other case it returns
`true`.  In particular the lone byte `[0x80]` (negative zero) is rejected. -/
theorem claim_C3 :
    (∀ (vch : List Nat) (nMaxNumSize : Nat),
      IsMinimallyEncoded vch nMaxNumSize = false ↔
        (vch.length > nMaxNumSize ∨
          (vch ≠ [] ∧ vch.getLastD 0 &&& 0x7f = 0 ∧
            (vch.length ≤ 1 ∨ vch.getD (vch.length - 2) 0 &&& 0x80 = 0)))) ∧
    IsMinimallyEncoded [0x80] 4 = false := by
  constructor
  · intro vch nMax
    unfold IsMinimallyEncoded
    by_cases h1 : vch.length > nMax
    · simp only [if_pos h1]
      simp [h1]
    · rw [if_neg h1]
      by_cases h2 : 0 < vch.length
      · rw [if_pos h2]
        have hvne : vch ≠ [] := by
          intro hc
          subst hc
          simp at h2
        by_cases h3 : vch.getLastD 0 &&& 0x7f = 0
        · rw [if_pos h3]
          by_cases h4 : vch.length ≤ 1 ∨ vch.getD (vch.length - 2) 0 &&& 0x80 = 0
          · rw [if_pos h4]
            simp only [true_iff]
            exact Or.inr ⟨hvne, h3, h4⟩
          · rw [if_neg h4]
            simp only [Bool.true_eq_false, false_iff]
            intro hc
            rcases hc with hc | ⟨_, _, hc⟩
            · exact h1 hc
            · exact h4 hc
        · rw [if_neg h3]
          simp only [Bool.true_eq_false, false_iff]
          intro hc
          rcases hc with hc | ⟨_, hc, _⟩
          · exact h1 hc
          · exact h3 hc
      · rw [if_neg h2]
        have hnil : vch = [] := by
          cases vch with
          | nil => rfl
          | cons a l => simp at h2
        subst hnil
        simp only [Bool.true_eq_false, false_iff]
        intro hc
        rcases hc with hc | ⟨hc, _⟩
        · exact h1 hc
        · exact hc rfl
  · decide

/-! ### Claim C9 (corrected): the sign-collision vectors -/

/-- C9 as frozen is false: `IsMinimallyEncoded [0xff, 0x00] 4` returns
`true`, not `false` — `[0xff, 0x00]` is the minimal encoding of +255, whose
trailing zero byte is structurally required by the second byte's high bit. -/
theorem claim_C9_counterexample :
    ¬(IsMinimallyEncoded [0xff, 0x00] 4 = false ∧
      IsMinimallyEncoded [0xff, 0x80] 4 = true) := by
  decide

/-- C9 (amended): both `[0xff, 0x00]` (+255) and `[0xff, 0x80]` (-255) are
accepted by `IsMinimallyEncoded` with `nMaxNumSize = 4`. -/
theorem claim_C9 :
    IsMinimallyEncoded [0xff, 0x00] 4 = true ∧
      IsMinimallyEncoded [0xff, 0x80] 4 = true := by
  decide

/-! ### Forward decoder closed form -/

theorem dvd_le_sub (P D M : Nat) (_hP : 0 < P) (h1 : P ∣ D) (h2 : P ∣ M)
    (h3 : D < M) : D ≤ M - P := by
  obtain ⟨x, rfl⟩ := h1
  obtain ⟨y, rfl⟩ := h2
  have hxy : x < y := Nat.lt_of_mul_lt_mul_left h3
  have h4 : P * (x + 1) ≤ P * y := Nat.mul_le_mul_left _ hxy
  rw [Nat.mul_add, Nat.mul_one] at h4
  omega

/-- Merging a fresh byte shifted to position `i` with a tail shifted to
position `i + 1`, both reduced modulo `2 ^ 64`. -/
theorem shift_merge (b m i : Nat) (hb : b < 256) :
    ((b <<< (8 * i)) % 2 ^ 64) ||| ((m <<< (8 * (i + 1))) % 2 ^ 64)
      = ((b + 256 * m) <<< (8 * i)) % 2 ^ 64 := by
  rw [Nat.shiftLeft_eq, Nat.shiftLeft_eq, Nat.shiftLeft_eq]
  rcases Nat.lt_or_ge i 8 with h8 | h8
  · -- position still inside the 64-bit word
    have hexp : (b + 256 * m) * 2 ^ (8 * i)
        = b * 2 ^ (8 * i) + m * 2 ^ (8 * (i + 1)) := by
      have h1 : (2 : Nat) ^ (8 * (i + 1)) = 2 ^ (8 * i) * 256 := by
        rw [show 8 * (i + 1) = 8 * i + 8 by ring, pow_add]
        norm_num
      rw [h1]
      ring
    have hb1 : b * 2 ^ (8 * i) < 2 ^ (8 * i + 8) := by
      calc b * 2 ^ (8 * i) < 256 * 2 ^ (8 * i) :=
            (Nat.mul_lt_mul_right (Nat.pos_pow_of_pos _ (by norm_num))).mpr hb
        _ = 2 ^ (8 * i + 8) := by rw [pow_add]; ring_nf
    have hdvd : (2 : Nat) ^ (8 * i + 8) ∣ 2 ^ 64 := pow_dvd_pow 2 (by omega)
    have hDmod : (m * 2 ^ (8 * (i + 1))) % 2 ^ 64 % 2 ^ (8 * i + 8) = 0 := by
      rw [Nat.mod_mod_of_dvd _ hdvd, show 8 * (i + 1) = 8 * i + 8 by ring,
        Nat.mul_mod_left]
    have hblt : b * 2 ^ (8 * i) % 2 ^ 64 = b * 2 ^ (8 * i) := by
      apply Nat.mod_eq_of_lt
      calc b * 2 ^ (8 * i) < 2 ^ (8 * i + 8) := hb1
        _ ≤ 2 ^ 64 := Nat.pow_le_pow_right (by norm_num) (by omega)
    rw [hblt, Nat.lor_comm, lor_eq_add (8 * i + 8) hDmod hb1, hexp]
    have hDlt : (m * 2 ^ (8 * (i + 1))) % 2 ^ 64 < 2 ^ 64 :=
      Nat.mod_lt _ (by positivity)
    have hDle : (m * 2 ^ (8 * (i + 1))) % 2 ^ 64 ≤ 2 ^ 64 - 2 ^ (8 * i + 8) :=
      dvd_le_sub _ _ _ (Nat.pos_pow_of_pos _ (by norm_num))
        (Nat.dvd_of_mod_eq_zero hDmod) hdvd hDlt
    set B := b * 2 ^ (8 * i) with hB
    set E := m * 2 ^ (8 * (i + 1)) with hE
    set P := (2 : Nat) ^ (8 * i + 8) with hPdef
    clear_value B E P
    omega
  · -- position entirely shifted out: every term vanishes modulo 2^64
    have e1 : b * 2 ^ (8 * i) % 2 ^ 64 = 0 := by
      obtain ⟨c, hc⟩ : (2 : Nat) ^ 64 ∣ b * 2 ^ (8 * i) :=
        Dvd.dvd.mul_left (pow_dvd_pow 2 (by omega)) b
      rw [hc, Nat.mul_mod_right]
    have e2 : m * 2 ^ (8 * (i + 1)) % 2 ^ 64 = 0 := by
      obtain ⟨c, hc⟩ : (2 : Nat) ^ 64 ∣ m * 2 ^ (8 * (i + 1)) :=
        Dvd.dvd.mul_left (pow_dvd_pow 2 (by omega)) m
      rw [hc, Nat.mul_mod_right]
    have e3 : (b + 256 * m) * 2 ^ (8 * i) % 2 ^ 64 = 0 := by
      obtain ⟨c, hc⟩ : (2 : Nat) ^ 64 ∣ (b + 256 * m) * 2 ^ (8 * i) :=
        Dvd.dvd.mul_left (pow_dvd_pow 2 (by omega)) _
      rw [hc, Nat.mul_mod_right]
    rw [e1, e2, e3]
    rfl

/-- Closed form of the forward decoder loop on a split byte list. -/
theorem fwdLoop_eq (I : List Nat) :
    ∀ (L i result : Nat), (∀ b ∈ I, b < 256) → L < 256 →
    deserializeForwardLoop (I ++ [L]) i result =
      if L &&& 0x80 ≠ 0 then
        neg64 (result |||
          (((magVal I + (L &&& 0x7f) * 256 ^ I.length) <<< (8 * i)) % 2 ^ 64))
      else
        result |||
          (((magVal I + (L &&& 0x7f) * 256 ^ I.length) <<< (8 * i)) % 2 ^ 64) := by
  induction I with
  | nil =>
    intro L i result hI hL
    simp only [List.nil_append, magVal, List.length_nil, pow_zero, Nat.mul_one,
      Nat.zero_add]
    by_cases hs : L &&& 0x80 ≠ 0
    · rw [if_pos hs]
      show (if ([] : List Nat).isEmpty ∧ L &&& 0x80 ≠ 0 then
          neg64 (result ||| (((L &&& 0x7f) <<< (8 * i)) % 2 ^ 64))
        else deserializeForwardLoop [] (i + 1)
          (result ||| ((L <<< (8 * i)) % 2 ^ 64))) = _
      rw [if_pos ⟨by simp, hs⟩]
    · rw [if_neg hs]
      show (if ([] : List Nat).isEmpty ∧ L &&& 0x80 ≠ 0 then
          neg64 (result ||| (((L &&& 0x7f) <<< (8 * i)) % 2 ^ 64))
        else deserializeForwardLoop [] (i + 1)
          (result ||| ((L <<< (8 * i)) % 2 ^ 64))) = _
      rw [if_neg (by intro hc; exact hs hc.2)]
      show result ||| ((L <<< (8 * i)) % 2 ^ 64) = _
      have hmask : L &&& 0x7f = L := by
        rw [and_80] at hs
        rw [and_7f]
        omega
      rw [hmask]
  | cons b I' ih =>
    intro L i result hI hL
    have hb : b < 256 := hI b (by simp)
    have hI' : ∀ x ∈ I', x < 256 := fun x hx => hI x (by simp [hx])
    rw [List.cons_append]
    show (if (I' ++ [L]).isEmpty ∧ b &&& 0x80 ≠ 0 then
        neg64 (result ||| (((b &&& 0x7f) <<< (8 * i)) % 2 ^ 64))
      else deserializeForwardLoop (I' ++ [L]) (i + 1)
        (result ||| ((b <<< (8 * i)) % 2 ^ 64))) = _
    rw [if_neg (by intro hc; simp at hc)]
    rw [ih L (i + 1) _ hI' hL]
    have key : ((b <<< (8 * i)) % 2 ^ 64) |||
        (((magVal I' + (L &&& 0x7f) * 256 ^ I'.length) <<< (8 * (i + 1))) % 2 ^ 64)
        = ((magVal (b :: I') + (L &&& 0x7f) * 256 ^ (b :: I').length)
            <<< (8 * i)) % 2 ^ 64 := by
      have h1 : magVal (b :: I') + (L &&& 0x7f) * 256 ^ (b :: I').length
          = b + 256 * (magVal I' + (L &&& 0x7f) * 256 ^ I'.length) := by
        simp only [magVal, List.length_cons]
        rw [pow_succ]
        ring
      rw [h1]
      exact shift_merge b _ i hb
    by_cases hs : L &&& 0x80 ≠ 0
    · rw [if_pos hs, if_pos hs]
      congr 1
      rw [Nat.lor_assoc, key]
    · rw [if_neg hs, if_neg hs]
      rw [Nat.lor_assoc, key]

/-- The forward and bidirectional decoder variants agree on every non-empty
byte list. -/
theorem fwd_eq_bidir (bs : List Nat) (hb : ∀ b ∈ bs, b < 256) (hne : bs ≠ []) :
    deserializeForward bs = deserializeBidirectional bs := by
  obtain ⟨I, L, hsplit⟩ : ∃ I L, bs = I ++ [L] :=
    ⟨bs.dropLast, bs.getLast hne, (List.dropLast_concat_getLast hne).symm⟩
  subst hsplit
  have hL : L < 256 := hb _ (by simp)
  have hI : ∀ b ∈ I, b < 256 := fun b h => hb b (by simp [h])
  unfold deserializeForward deserializeBidirectional deserializeForwardPat
  rw [fwdLoop_eq I L 0 0 hI hL, bidirPat_eq I L hI hL]
  simp only [Nat.mul_zero, Nat.shiftLeft_zero, Nat.zero_or]

/-! ### Random-access decoder closed form -/

/-- Merging an in-word shifted byte into an accumulated magnitude. -/
theorem mag_merge (A bk k : Nat) (hA : A < 2 ^ (8 * k)) (hbk : bk < 256)
    (hk : k ≤ 7) :
    (A % 2 ^ 64) ||| ((bk <<< (8 * k)) % 2 ^ 64) = (A + bk * 256 ^ k) % 2 ^ 64 := by
  rw [Nat.shiftLeft_eq]
  have h256 : (256 : Nat) ^ k = 2 ^ (8 * k) := by
    rw [show (256 : Nat) = 2 ^ 8 by norm_num, ← pow_mul]
  have h64 : (2 : Nat) ^ (8 * (k + 1)) ≤ 2 ^ 64 :=
    Nat.pow_le_pow_right (by norm_num) (by omega)
  have hsum : A + bk * 2 ^ (8 * k) < 2 ^ (8 * (k + 1)) := by
    have h1 : (bk + 1) * 2 ^ (8 * k) ≤ 256 * 2 ^ (8 * k) :=
      Nat.mul_le_mul_right _ (by omega)
    have h2 : (256 : Nat) * 2 ^ (8 * k) = 2 ^ (8 * (k + 1)) := by
      rw [show 8 * (k + 1) = 8 * k + 8 by ring, pow_add]
      ring_nf
    calc A + bk * 2 ^ (8 * k) < 2 ^ (8 * k) + bk * 2 ^ (8 * k) := by omega
      _ = (bk + 1) * 2 ^ (8 * k) := by ring
      _ ≤ 256 * 2 ^ (8 * k) := h1
      _ = 2 ^ (8 * (k + 1)) := h2
  have hA64 : A < 2 ^ 64 :=
    lt_of_lt_of_le hA (Nat.pow_le_pow_right (by norm_num) (by omega))
  have hB64 : bk * 2 ^ (8 * k) < 2 ^ 64 := by
    have := hsum
    omega
  rw [Nat.mod_eq_of_lt hA64, Nat.mod_eq_of_lt hB64, h256,
    Nat.lor_comm, lor_eq_add (8 * k) (Nat.mul_mod_left _ _) hA,
    Nat.mod_eq_of_lt (lt_of_lt_of_le hsum h64)]
  exact Nat.add_comm _ _

/-- General append law for `magVal`. -/
theorem magVal_append (xs ys : List Nat) :
    magVal (xs ++ ys) = magVal xs + 256 ^ xs.length * magVal ys := by
  induction xs with
  | nil => simp [magVal]
  | cons b rest ih =>
    rw [List.cons_append]
    show b + 256 * magVal (rest ++ ys) = _
    rw [ih]
    simp only [magVal, List.length_cons]
    rw [pow_succ]
    ring

/-- The counted accumulation loop of the random-access decoder computes the
base-256 value of the first `k` bytes, modulo `2 ^ 64`. -/
theorem randFold_eq (bytes : List Nat) (hb : ∀ b ∈ bytes, b < 256) :
    ∀ k, (List.range k).foldl
        (fun r i => r ||| (((bytes.getD i 0) <<< (8 * i)) % 2 ^ 64)) 0
      = magVal (bytes.take k) % 2 ^ 64 := by
  intro k
  induction k with
  | zero => simp [magVal]
  | succ k ihk =>
    rw [List.range_succ, List.foldl_append, ihk]
    simp only [List.foldl_cons, List.foldl_nil]
    rcases Nat.lt_or_ge k bytes.length with hk | hk
    · have hbk : bytes.getD k 0 < 256 := by
        have h1 : bytes.getD k 0 = bytes[k] := by
          rw [List.getD_eq_getElem?_getD, List.getElem?_eq_getElem hk]
          rfl
        rw [h1]
        exact hb _ (List.getElem_mem hk)
      rw [magVal_take_succ bytes k hk]
      rcases Nat.lt_or_ge k 8 with hk8 | hk8
      · -- in-word position
        have hmagk : magVal (bytes.take k) < 2 ^ (8 * k) := by
          have h1 := magVal_lt (bytes.take k)
            (fun b hb2 => hb b (List.mem_of_mem_take hb2))
          have h2 : (bytes.take k).length = k := by
            rw [List.length_take]
            omega
          rw [h2] at h1
          calc magVal (bytes.take k) < 256 ^ k := h1
            _ = 2 ^ (8 * k) := by
              rw [show (256 : Nat) = 2 ^ 8 by norm_num, ← pow_mul]
        exact mag_merge _ _ k hmagk hbk (by omega)
      · -- shifted out of the word: contributes nothing
        have e1 : (bytes.getD k 0 <<< (8 * k)) % 2 ^ 64 = 0 := by
          rw [Nat.shiftLeft_eq]
          obtain ⟨c, hc⟩ : (2 : Nat) ^ 64 ∣ bytes.getD k 0 * 2 ^ (8 * k) :=
            Dvd.dvd.mul_left (pow_dvd_pow 2 (by omega)) _
          rw [hc, Nat.mul_mod_right]
        rw [e1, Nat.or_zero]
        obtain ⟨c, hc⟩ : (2 : Nat) ^ 64 ∣ bytes.getD k 0 * 256 ^ k := by
          apply Dvd.dvd.mul_left
          rw [show (256 : Nat) = 2 ^ 8 by norm_num, ← pow_mul]
          exact pow_dvd_pow 2 (by omega)
        rw [hc]
        rw [show (2 : Nat) ^ 64 * c = c * 2 ^ 64 by ring]
        rw [Nat.add_mul_mod_self_right]
    · -- `k` beyond the list: default byte 0, take saturates
      have h0 : bytes.getD k 0 = 0 := by
        rw [List.getD_eq_getElem?_getD, List.getElem?_eq_none (by omega)]
        rfl
      have ht : bytes.take (k + 1) = bytes.take k := by
        rw [List.take_of_length_le (by omega), List.take_of_length_le (by omega)]
      rw [h0, ht]
      simp

/-- For byte lists within the host width, the random-access decoder pattern
agrees with the bidirectional one. -/
theorem randPat_eq_bidirPat (I : List Nat) (L : Nat) (hI : ∀ b ∈ I, b < 256)
    (hL : L < 256) (hlen : I.length ≤ 7) :
    deserializeRandomPat (I ++ [L]) = deserializeBidirPat (I ++ [L]) := by
  have hball : ∀ b ∈ I ++ [L], b < 256 := by
    intro b hbm
    rcases List.mem_append.mp hbm with h | h
    · exact hI b h
    · simp at h
      omega
  have hlen1 : (I ++ [L]).length = I.length + 1 := by simp
  unfold deserializeRandomPat
  rw [bidirPat_eq I L hI hL]
  simp only [hlen1]
  rw [if_neg (by omega)]
  have hd1 : I.length + 1 - 1 = I.length := by omega
  rw [hd1, randFold_eq (I ++ [L]) hball I.length,
    List.take_left' rfl]
  have hgetL : (I ++ [L]).getD I.length 0 = L := by
    rw [List.getD_append_right _ _ _ _ (le_refl _)]
    simp
  rw [hgetL]
  have hmagI : magVal I < 2 ^ (8 * I.length) := by
    calc magVal I < 256 ^ I.length := magVal_lt I hI
      _ = 2 ^ (8 * I.length) := by
        rw [show (256 : Nat) = 2 ^ 8 by norm_num, ← pow_mul]
  by_cases hs : L &&& 0x80 ≠ 0
  · rw [if_pos hs, if_pos hs]
    congr 1
    rw [mag_merge _ _ _ hmagI (by rw [and_7f]; omega) hlen]
  · rw [if_neg hs, if_neg hs]
    have hmask : L &&& 0x7f = L := by
      rw [and_80] at hs
      rw [and_7f]
      omega
    rw [mag_merge _ _ _ hmagI (by omega) hlen, hmask]

/-! ### Claim C6 (corrected): agreement of the three decoder variants -/

/-- C6 as frozen is false: on the nine-byte list `[1,0,0,0,0,0,0,0,0x80]`
the bidirectional (and forward) variant returns `-1` while the
random-access variant takes its width-overflow early return and yields `1`. -/
theorem claim_C6_counterexample :
    deserializeBidirectional [1, 0, 0, 0, 0, 0, 0, 0, 0x80] = -1 ∧
      deserializeForward [1, 0, 0, 0, 0, 0, 0, 0, 0x80] = -1 ∧
      deserializeRandom [1, 0, 0, 0, 0, 0, 0, 0, 0x80] = 1 ∧
      deserializeRandom [1, 0, 0, 0, 0, 0, 0, 0, 0x80]
        ≠ deserializeBidirectional [1, 0, 0, 0, 0, 0, 0, 0, 0x80] := by
  refine ⟨by decide, by decide, by decide, by decide⟩

/-- C6 (amended): the forward and bidirectional variants agree on every
non-empty byte sequence, and the random-access variant agrees with both
whenever the sequence is no longer than the host width (8 bytes). -/
theorem claim_C6 (bs : List Nat) (hb : ∀ b ∈ bs, b < 256) (hne : bs ≠ []) :
    deserializeForward bs = deserializeBidirectional bs ∧
      (bs.length ≤ 8 → deserializeRandom bs = deserializeBidirectional bs) := by
  refine ⟨fwd_eq_bidir bs hb hne, ?_⟩
  intro hlen
  obtain ⟨I, L, hsplit⟩ : ∃ I L, bs = I ++ [L] :=
    ⟨bs.dropLast, bs.getLast hne, (List.dropLast_concat_getLast hne).symm⟩
  subst hsplit
  have hL : L < 256 := hb _ (by simp)
  have hI : ∀ b ∈ I, b < 256 := fun b h => hb b (by simp [h])
  have hlen7 : I.length ≤ 7 := by
    simp at hlen
    omega
  unfold deserializeRandom deserializeBidirectional
  rw [randPat_eq_bidirPat I L hI hL hlen7]

/-- Witness for the amended C6 at `bs = [0xff, 0x80]`. -/
theorem claim_C6_witness :
    deserializeForward [0xff, 0x80] = deserializeBidirectional [0xff, 0x80] ∧
      deserializeRandom [0xff, 0x80] = deserializeBidirectional [0xff, 0x80] :=
  ⟨(claim_C6 [0xff, 0x80] (by decide) (by decide)).1,
    (claim_C6 [0xff, 0x80] (by decide) (by decide)).2 (by decide)⟩

/-! ### Claim C7: width-overflow behavior of the random-access decoder -/

/-- C7: when the input's length `d` exceeds `sizeof(T) = 8`, the
random-access variant returns the unsigned magnitude accumulated from the
first `d - 1` bytes — bytes whose shift would exceed the 64-bit width
contribute nothing, so the pattern equals the base-256 value of the first 8
bytes — and the last byte's sign adjustment is never applied. -/
theorem claim_C7 (bytes : List Nat) (hb : ∀ b ∈ bytes, b < 256)
    (hlen : 8 < bytes.length) :
    deserializeRandomPat bytes = magVal bytes.dropLast % 2 ^ 64 ∧
      deserializeRandomPat bytes = magVal (bytes.take 8) ∧
      deserializeRandom bytes = toInt64 (magVal (bytes.take 8)) := by
  have h1 : deserializeRandomPat bytes
      = magVal (bytes.take (bytes.length - 1)) % 2 ^ 64 := by
    simp only [deserializeRandomPat]
    rw [if_pos hlen]
    exact randFold_eq bytes hb _
  have htake8 : (bytes.take 8).length = 8 := by
    rw [List.length_take]
    omega
  have hA : magVal (bytes.take 8) < 2 ^ 64 := by
    have h := magVal_lt (bytes.take 8) (fun b h => hb b (List.mem_of_mem_take h))
    rw [htake8] at h
    calc magVal (bytes.take 8) < 256 ^ 8 := h
      _ = 2 ^ 64 := by norm_num
  have h2 : magVal (bytes.take (bytes.length - 1)) % 2 ^ 64
      = magVal (bytes.take 8) := by
    have hsplit : bytes.take (bytes.length - 1)
        = bytes.take 8 ++ (bytes.take (bytes.length - 1)).drop 8 := by
      have ht8 : (bytes.take (bytes.length - 1)).take 8 = bytes.take 8 := by
        rw [List.take_take]
        congr 1
        omega
      rw [← ht8, List.take_append_drop]
    rw [hsplit, magVal_append, htake8,
      show (256 : Nat) ^ 8 = 2 ^ 64 by norm_num,
      show (2 : Nat) ^ 64 * magVal ((bytes.take (bytes.length - 1)).drop 8)
        = magVal ((bytes.take (bytes.length - 1)).drop 8) * 2 ^ 64 by ring,
      Nat.add_mul_mod_self_right, Nat.mod_eq_of_lt hA]
  refine ⟨?_, ?_, ?_⟩
  · rw [h1, List.dropLast_eq_take]
  · rw [h1, h2]
  · unfold deserializeRandom
    rw [h1, h2]

/-- Witness for C7 at the nine-byte list `[1,0,0,0,0,0,0,0,0x80]`. -/
theorem claim_C7_witness :
    deserializeRandomPat [1, 0, 0, 0, 0, 0, 0, 0, 0x80]
        = magVal (List.dropLast [1, 0, 0, 0, 0, 0, 0, 0, 0x80]) % 2 ^ 64 ∧
      deserializeRandomPat [1, 0, 0, 0, 0, 0, 0, 0, 0x80]
        = magVal (List.take 8 [1, 0, 0, 0, 0, 0, 0, 0, 0x80]) ∧
      deserializeRandom [1, 0, 0, 0, 0, 0, 0, 0, 0x80]
        = toInt64 (magVal (List.take 8 [1, 0, 0, 0, 0, 0, 0, 0, 0x80])) :=
  claim_C7 [1, 0, 0, 0, 0, 0, 0, 0, 0x80] (by decide) (by decide)

/-! ### The rewriter's scan loop produces serializer output -/

theorem take_succ_getD (I : List Nat) (k : Nat) (hk : k < I.length) :
    I.take (k + 1) = I.take k ++ [I.getD k 0] := by
  rw [List.take_succ]
  congr 1
  rw [List.getD_eq_getElem?_getD]
  simp [List.getElem?_eq_getElem hk]

/-- The signed value of a decoded split byte list, within the host width. -/
theorem deserialize_val (I : List Nat) (L : Nat) (hI : ∀ b ∈ I, b < 256)
    (hL : L < 256) (hlen : I.length ≤ 7) :
    deserializeBidirectional (I ++ [L])
      = if L &&& 0x80 ≠ 0
        then -((magVal I + (L &&& 0x7f) * 256 ^ I.length : Nat) : Int)
        else ((magVal I + (L &&& 0x7f) * 256 ^ I.length : Nat) : Int) := by
  set mg := magVal I + (L &&& 0x7f) * 256 ^ I.length with hmgdef
  have hp256 : (256 : Nat) ^ I.length ≤ 256 ^ 7 :=
    Nat.pow_le_pow_right (by norm_num) hlen
  have hmagI : magVal I < 256 ^ I.length := magVal_lt I hI
  have hL7le : L &&& 0x7f ≤ 127 := by
    rw [and_7f]
    omega
  have hLmul : (L &&& 0x7f) * 256 ^ I.length ≤ 127 * 256 ^ I.length :=
    Nat.mul_le_mul_right _ hL7le
  have hmglt : mg < 2 ^ 63 := by
    have h1 : mg < 128 * 256 ^ I.length := by omega
    have h2 : (128 : Nat) * 256 ^ I.length ≤ 128 * 256 ^ 7 := by omega
    norm_num at h2
    omega
  unfold deserializeBidirectional
  rw [bidirPat_eq I L hI hL, ← hmgdef]
  have hmod : mg % 2 ^ 64 = mg := by omega
  by_cases hs : L &&& 0x80 ≠ 0
  · rw [if_pos hs, if_pos hs, hmod]
    unfold toInt64 neg64
    split <;> omega
  · rw [if_neg hs, if_neg hs, hmod]
    unfold toInt64
    split <;> omega

/-- Serializing a signed value given by magnitude and sign flag. -/
theorem serialize_of_parts (mg : Nat) (neg : Bool) (h1 : 0 < mg)
    (h2 : mg < 2 ^ 63) :
    serialize (if neg then -(mg : Int) else (mg : Int)) = serializeLoop mg neg := by
  cases neg with
  | true =>
    simp only [if_true]
    rw [serialize, if_neg (by omega)]
    have ha : abs (-(mg : Int)) = mg := by
      rw [abs_eq_natAbs _ (by omega) (by omega)]
      omega
    have hd : decide (-(mg : Int) < 0) = true := by
      simp
      omega
    rw [ha, hd]
  | false =>
    simp only [Bool.false_eq_true, if_false]
    rw [serialize, if_neg (by omega)]
    have ha : abs ((mg : Int)) = mg := by
      rw [abs_eq_natAbs _ (by omega) (by omega)]
      omega
    have hd : decide ((mg : Int) < 0) = false := by simp
    rw [ha, hd]

/-- The rewriter's scan loop, run on a buffer whose saved last byte is a pure
sign byte, produces exactly the serializer's output for the magnitude of the
first `k` bytes. -/
theorem scanLoop_eq_serializeLoop (I : List Nat) (L : Nat) (neg : Bool)
    (hI : ∀ b ∈ I, b < 256) (hL : L = if neg then 0x80 else 0) :
    ∀ k, k ≤ I.length →
      scanLoop (I ++ [L]) L k = serializeLoop (magVal (I.take k)) neg := by
  have hL7 : L &&& 0x7f = 0 := by
    rw [hL]
    cases neg <;> decide
  have hL256 : L < 256 := by
    rw [hL]
    cases neg <;> decide
  have hsign : (L &&& 0x80 ≠ 0) ↔ neg = true := by
    rw [hL]
    cases neg <;> simp
  intro k
  induction k with
  | zero =>
    intro _
    show scanLoop (I ++ [L]) L 0 = _
    rw [List.take_zero, show scanLoop (I ++ [L]) L 0 = [] from rfl,
      serializeLoop_eq]
    simp [magVal]
  | succ k ihk =>
    intro hk1
    have hk : k < I.length := by omega
    have hget : (I ++ [L]).getD k 0 = I.getD k 0 := List.getD_append _ _ _ _ hk
    have hbk256 : I.getD k 0 < 256 := by
      have h1 : I.getD k 0 = I[k] := by
        rw [List.getD_eq_getElem?_getD, List.getElem?_eq_getElem hk]
        rfl
      rw [h1]
      exact hI _ (List.getElem_mem hk)
    show scanLoop (I ++ [L]) L (k + 1) = _
    simp only [scanLoop, hget]
    by_cases h0 : I.getD k 0 = 0
    · rw [if_neg (by omega)]
      rw [ihk (by omega), magVal_take_succ I k hk, h0]
      simp
    · rw [if_pos h0]
      by_cases h80 : I.getD k 0 &&& 0x80 ≠ 0
      · rw [if_pos h80, take_append_le I [L] (k + 1) (by omega)]
        have htk : (I.take (k + 1)).length = k + 1 := by
          rw [List.length_take]
          omega
        have hlast : (I.take (k + 1)).getLastD 0 = I.getD k 0 := by
          rw [take_succ_getD I k hk, List.getLastD_concat]
        have hval : magVal (I.take (k + 1)) + (L &&& 0x7f) * 256 ^ (I.take (k + 1)).length
            = magVal (I.take (k + 1)) := by
          rw [hL7]
          ring
        have := serializeLoop_of_minimal (I.take (k + 1)) L neg
          (fun b hb => hI b (List.mem_of_mem_take hb)) hL256 hsign
          (Or.inr ⟨by rw [← List.length_pos, htk]; omega, by rw [hlast]; exact h80⟩)
        rw [hval] at this
        exact this.symm
      · rw [if_neg h80, take_append_le I [L] k (by omega)]
        have hbk128 : I.getD k 0 < 128 := by
          rw [and_80] at h80
          have : I.getD k 0 / 128 % 2 * 128 = 0 := not_not.mp h80
          omega
        have hLor : I.getD k 0 ||| L = I.getD k 0 + (if neg then 128 else 0) := by
          rw [hL]
          cases neg with
          | true => exact or_128 _ hbk128
          | false => simp
        have hL2_256 : I.getD k 0 ||| L < 256 := by
          rw [hLor]
          cases neg with
          | true =>
            rw [show (if (true : Bool) = true then (128 : Nat) else 0) = 128 from rfl]
            omega
          | false =>
            rw [show (if (false : Bool) = true then (128 : Nat) else 0) = 0 from rfl]
            omega
        have hL2_7f : (I.getD k 0 ||| L) &&& 0x7f = I.getD k 0 := by
          rw [and_7f, hLor]
          cases neg with
          | true =>
            rw [show (if (true : Bool) = true then (128 : Nat) else 0) = 128 from rfl]
            omega
          | false =>
            rw [show (if (false : Bool) = true then (128 : Nat) else 0) = 0 from rfl]
            omega
        have hL2_sign : ((I.getD k 0 ||| L) &&& 0x80 ≠ 0) ↔ neg = true := by
          rw [and_80, hLor]
          cases neg with
          | true =>
            rw [show (if (true : Bool) = true then (128 : Nat) else 0) = 128 from rfl]
            exact ⟨fun _ => rfl, fun _ => by omega⟩
          | false =>
            rw [show (if (false : Bool) = true then (128 : Nat) else 0) = 0 from rfl]
            constructor
            · intro hcc
              exfalso
              omega
            · intro hcc
              exact Bool.noConfusion hcc
        have htkk : (I.take k).length = k := by
          rw [List.length_take]
          omega
        have hval : magVal (I.take k) + ((I.getD k 0 ||| L) &&& 0x7f) * 256 ^ (I.take k).length
            = magVal (I.take (k + 1)) := by
          rw [hL2_7f, htkk, magVal_take_succ I k hk]
        have := serializeLoop_of_minimal (I.take k) (I.getD k 0 ||| L) neg
          (fun b hb => hI b (List.mem_of_mem_take hb)) hL2_256 hL2_sign
          (Or.inl (by rw [hL2_7f]; exact h0))
        rw [hval] at this
        exact this.symm

/-! ### Claim C5: the rewriter produces the encoder's canonical form -/

/-- C5: for every non-empty byte sequence of length at most the host width,
the buffer left by `MinimallyEncode` equals `serialize (deserialize bs)` —
the rewriter produces exactly the canonical form the encoder produces for
the same underlying integer value. -/
theorem claim_C5 (bs : List Nat) (hb : ∀ b ∈ bs, b < 256) (hne : bs ≠ [])
    (hlen : bs.length ≤ 8) :
    (MinimallyEncode bs).2 = serialize (deserializeBidirectional bs) := by
  obtain ⟨I, L, rfl⟩ : ∃ I L, bs = I ++ [L] :=
    ⟨bs.dropLast, bs.getLast hne, (List.dropLast_concat_getLast hne).symm⟩
  have hL : L < 256 := hb _ (by simp)
  have hI : ∀ b ∈ I, b < 256 := fun b h => hb b (by simp [h])
  have hlen7 : I.length ≤ 7 := by
    simp at hlen
    omega
  have hlen1 : (I ++ [L]).length = I.length + 1 := by simp
  have hmagIlt : magVal I < 2 ^ 63 := by
    have h1 := magVal_lt I hI
    have h2 : (256 : Nat) ^ I.length ≤ 256 ^ 7 :=
      Nat.pow_le_pow_right (by norm_num) hlen7
    norm_num at h2
    omega
  simp only [MinimallyEncode]
  rw [List.getLastD_concat, if_neg (by omega)]
  by_cases hA : L &&& 0x7f ≠ 0
  · rw [if_pos hA]
    exact (roundtrip_min I L hI hL hlen7 (Or.inl hA)).symm
  · rw [if_neg hA]
    push_neg at hA
    by_cases h1 : (I ++ [L]).length = 1
    · rw [if_pos h1]
      have hInil : I = [] := by
        rw [hlen1] at h1
        exact List.length_eq_zero.mp (by omega)
      subst hInil
      show ([] : List Nat) = serialize (deserializeBidirectional ([] ++ [L]))
      rw [deserialize_val [] L (by simp) hL (by simp)]
      simp only [magVal, List.length_nil, pow_zero, Nat.mul_one, Nat.zero_add, hA]
      by_cases hs : L &&& 0x80 ≠ 0
      · rw [if_pos hs]
        norm_num [serialize]
      · rw [if_neg hs]
        norm_num [serialize]
    · rw [if_neg h1]
      by_cases h2 : (I ++ [L]).getD ((I ++ [L]).length - 2) 0 &&& 0x80 ≠ 0
      · rw [if_pos h2]
        have hIne : I ≠ [] := by
          intro hc
          subst hc
          simp at h1
        have e2 : (I ++ [L]).getD ((I ++ [L]).length - 2) 0 = I.getLastD 0 := by
          have e1 : (I ++ [L]).length - 2 = I.length - 1 := by simp
          have hIpos : 0 < I.length := List.length_pos.mpr hIne
          rw [e1, List.getD_append _ _ _ _ (by omega), getD_last I hIne]
        rw [e2] at h2
        exact (roundtrip_min I L hI hL hlen7 (Or.inr ⟨hIne, h2⟩)).symm
      · rw [if_neg h2]
        show scanLoop (I ++ [L]) L ((I ++ [L]).length - 1) = _
        have hd1 : (I ++ [L]).length - 1 = I.length := by omega
        rw [hd1]
        have hL0 : L = 0 ∨ L = 128 := by
          rw [and_7f] at hA
          omega
        rcases hL0 with hL0 | hL0
        · subst hL0
          rw [scanLoop_eq_serializeLoop I 0 false hI rfl I.length (le_refl _),
            List.take_length, deserialize_val I 0 hI (by norm_num) hlen7,
            if_neg (by decide)]
          rw [show (0 : Nat) &&& 0x7f = 0 from rfl]
          simp only [Nat.zero_mul, Nat.add_zero]
          rcases Nat.eq_zero_or_pos (magVal I) with hz | hpos
          · rw [hz, serializeLoop_eq]
            norm_num [serialize]
          · have hser := serialize_of_parts (magVal I) false hpos hmagIlt
            rw [show (if (false : Bool) = true then -((magVal I : Nat) : Int)
                else ((magVal I : Nat) : Int)) = ((magVal I : Nat) : Int) from rfl]
              at hser
            rw [hser]
        · subst hL0
          rw [scanLoop_eq_serializeLoop I 128 true hI rfl I.length (le_refl _),
            List.take_length, deserialize_val I 128 hI (by norm_num) hlen7,
            if_pos (by decide)]
          rw [show (128 : Nat) &&& 0x7f = 0 from rfl]
          simp only [Nat.zero_mul, Nat.add_zero]
          rcases Nat.eq_zero_or_pos (magVal I) with hz | hpos
          · rw [hz, serializeLoop_eq]
            norm_num [serialize]
          · have hser := serialize_of_parts (magVal I) true hpos hmagIlt
            rw [show (if (true : Bool) = true then -((magVal I : Nat) : Int)
                else ((magVal I : Nat) : Int)) = -((magVal I : Nat) : Int) from rfl]
              at hser
            rw [hser]

/-- Witness for C5 at `bs = [0x05, 0x00]` (a non-minimal encoding of 5). -/
theorem claim_C5_witness :
    (MinimallyEncode [0x05, 0x00]).2
      = serialize (deserializeBidirectional [0x05, 0x00]) :=
  claim_C5 [0x05, 0x00] (by decide) (by decide) (by decide)

/-! ### Claim C8: the rewriter's flag reports exactly whether it modified -/

theorem scanLoop_length_le (data : List Nat) (L : Nat) :
    ∀ k, (scanLoop data L k).length ≤ k + 1 := by
  intro k
  induction k with
  | zero => simp [scanLoop]
  | succ k ih =>
    show (scanLoop data L (k + 1)).length ≤ k + 2
    simp only [scanLoop]
    by_cases h0 : data.getD k 0 ≠ 0
    · rw [if_pos h0]
      by_cases h80 : data.getD k 0 &&& 0x80 ≠ 0
      · rw [if_pos h80]
        simp only [List.length_append, List.length_take, List.length_cons,
          List.length_nil]
        omega
      · rw [if_neg h80]
        simp only [List.length_append, List.length_take, List.length_cons,
          List.length_nil]
        omega
    · rw [if_neg h0]
      omega

theorem scanLoop_length_lt (data : List Nat) (L : Nat) (k : Nat)
    (hguard : data.getD (k - 1) 0 ≠ 0 → data.getD (k - 1) 0 &&& 0x80 = 0) :
    (scanLoop data L k).length ≤ k := by
  cases k with
  | zero => simp [scanLoop]
  | succ k =>
    simp only [scanLoop]
    by_cases h0 : data.getD k 0 ≠ 0
    · rw [if_pos h0]
      have h80 : data.getD k 0 &&& 0x80 = 0 := hguard (by simpa using h0)
      rw [if_neg (by omega)]
      simp only [List.length_append, List.length_take, List.length_cons,
        List.length_nil]
      omega
    · rw [if_neg h0]
      exact scanLoop_length_le data L k

/-- C8: `MinimallyEncode` returns `true` exactly when it modified the buffer;
whenever it returns `false` — empty input, a last byte with a low bit set, or
a structurally required trailing sign byte — the buffer is unchanged. -/
theorem claim_C8 (data : List Nat) :
    ((MinimallyEncode data).1 = true ↔ (MinimallyEncode data).2 ≠ data) ∧
      ((MinimallyEncode data).1 = false → (MinimallyEncode data).2 = data) ∧
      ((MinimallyEncode data).1 = false ↔
        (data = [] ∨ data.getLastD 0 &&& 0x7f ≠ 0 ∨
          (2 ≤ data.length ∧ data.getLastD 0 &&& 0x7f = 0 ∧
            data.getD (data.length - 2) 0 &&& 0x80 ≠ 0))) := by
  simp only [MinimallyEncode]
  by_cases h0 : data.length = 0
  · rw [if_pos h0]
    have hdata : data = [] := List.length_eq_zero.mp h0
    subst hdata
    refine ⟨by simp, fun _ => rfl, by simp⟩
  · rw [if_neg h0]
    have hdne : data ≠ [] := by
      intro hc
      subst hc
      simp at h0
    by_cases hA : data.getLastD 0 &&& 0x7f ≠ 0
    · rw [if_pos hA]
      exact ⟨by simp, fun _ => rfl,
        ⟨fun _ => Or.inr (Or.inl hA), fun _ => rfl⟩⟩
    · rw [if_neg hA]
      by_cases h1 : data.length = 1
      · rw [if_pos h1]
        refine ⟨⟨fun _ hc => hdne hc.symm, fun _ => rfl⟩,
          fun hc => absurd hc (by simp), ⟨fun hc => absurd hc (by simp), ?_⟩⟩
        intro hrhs
        rcases hrhs with hr | hr | ⟨hr, _, _⟩
        · exact absurd hr hdne
        · exact absurd hr hA
        · omega
      · rw [if_neg h1]
        by_cases h2 : data.getD (data.length - 2) 0 &&& 0x80 ≠ 0
        · rw [if_pos h2]
          exact ⟨by simp, fun _ => rfl,
            ⟨fun _ => Or.inr (Or.inr ⟨by omega, not_not.mp hA, h2⟩),
              fun _ => rfl⟩⟩
        · rw [if_neg h2]
          have hscan : (scanLoop data (data.getLastD 0) (data.length - 1)).length
              ≤ data.length - 1 := by
            apply scanLoop_length_lt
            intro _
            have he : data.length - 1 - 1 = data.length - 2 := by omega
            rw [he]
            exact not_not.mp h2
          refine ⟨⟨fun _ hc => ?_, fun _ => rfl⟩,
            fun hc => absurd hc (by simp), ⟨fun hc => absurd hc (by simp), ?_⟩⟩
          · have hlc := congrArg List.length hc
            simp only at hlc
            omega
          · intro hrhs
            rcases hrhs with hr | hr | ⟨_, _, hr⟩
            · exact absurd hr hdne
            · exact absurd hr hA
            · exact absurd hr h2

end bsv
